import Mathlib

/-!
Verification development for the `efas_hydro` repository: a shallow embedding of
the station retrieval contract (`get_stations`), the time-series retrieval
contract (`get_timeseries`), the station deduplication algorithm
(`find_duplicates`), and the notebook's time-series concatenation/export step,
together with proofs of the specified properties.

Coordinates, distances and thresholds are modelled over `ℚ`; the comparison
`distance(i,j) ≤ thr` is embedded as `sqDist i j ≤ thr * thr`, which is
equivalent for a positive threshold and keeps everything decidable.
-/

/-- Modelled from the spec: the error taxonomy of §7 (the library code raising
these errors, `efashydro/stations.py` and `efashydro/timeseries.py`, is not
present under `src/`). -/
inductive HydroError where
  | authentication
  | invalidFilter
  | invalidParameter
  | missingColumn
deriving DecidableEq

/-- Modelled from the spec: the six enumerated time-series service codes of §6
(the implementation file `efashydro/timeseries.py` is not under `src/`). -/
def serviceCodes : List String :=
  ["noperational1h", "noperational6h", "noperational24h",
   "nhoperational1h", "nhoperational6h", "nhoperational24h"]

/-- Modelled from the spec: `get_timeseries` of §4.3 (its implementation
`efashydro/timeseries.py` is not under `src/`). Timestamps are `Nat` ticks; the
remote service's response for the (station, service) pair is injected as
`history`, a timestamp-indexed table, so "no network call is made" is expressed
as independence of the result from `history`. Validation (service code, date
order) happens before the fetch; a provided `[start, stop]` window clips the
result inclusively; absent bounds mean full history. -/
def get_timeseries (service : String) (start stop : Option Nat)
    (history : List (Nat × Int)) : Except HydroError (List (Nat × Int)) :=
  if serviceCodes.contains service then
    match start, stop with
    | some s, some e =>
        if s ≤ e then .ok (history.filter (fun p => decide (s ≤ p.1) && decide (p.1 ≤ e)))
        else .error .invalidParameter
    | some s, none => .ok (history.filter (fun p => decide (s ≤ p.1)))
    | none, some e => .ok (history.filter (fun p => decide (p.1 ≤ e)))
    | none, none => .ok history
  else .error .invalidParameter

/-- Modelled from the spec: a `StationRecord` of §3 (the station catalog row
assembled by `efashydro/stations.py`, which is not under `src/`). -/
structure StationRec where
  sid : Nat
  kind : String
  country : Option String
  provider : Option String
  basin : Option String
  lon : ℚ
  lat : ℚ
deriving DecidableEq

/-- Modelled from the spec: the `extent` bounding box of §4.1, a 4-tuple
(min-longitude, min-latitude, max-longitude, max-latitude). -/
structure Extent where
  minLon : ℚ
  minLat : ℚ
  maxLon : ℚ
  maxLat : ℚ
deriving DecidableEq

/-- A rectangle is valid when each minimum does not exceed its maximum. -/
def validExtent (e : Extent) : Bool :=
  decide (e.minLon ≤ e.maxLon) && decide (e.minLat ≤ e.maxLat)

/-- A station location lies inside the closed rectangle (inclusive bounds). -/
def insideExtent (e : Extent) (s : StationRec) : Bool :=
  decide (e.minLon ≤ s.lon) && decide (s.lon ≤ e.maxLon) &&
  decide (e.minLat ≤ s.lat) && decide (s.lat ≤ e.maxLat)

/-- Modelled from the spec: the optional, independently combinable filters of
`get_stations` (§4.1). -/
structure StationQuery where
  kind : Option String
  country : Option (List String)
  provider : Option (List String)
  basin : Option String
  stationId : Option (List Nat)
  extent : Option Extent

/-- A record passes an optional filter when the filter is absent or matches. -/
def matchesQuery (q : StationQuery) (s : StationRec) : Bool :=
  (match q.kind with | none => true | some k => decide (s.kind = k)) &&
  (match q.country with
   | none => true
   | some cs => match s.country with
     | none => false
     | some c => decide (c ∈ cs)) &&
  (match q.provider with
   | none => true
   | some ps => match s.provider with
     | none => false
     | some p => decide (p ∈ ps)) &&
  (match q.basin with
   | none => true
   | some b => match s.basin with
     | none => false
     | some b2 => decide (b2 = b)) &&
  (match q.stationId with | none => true | some ids => decide (s.sid ∈ ids)) &&
  (match q.extent with | none => true | some e => insideExtent e s)

/-- Modelled from the spec: `get_stations` of §4.1 (its implementation
`efashydro/stations.py` is not under `src/`). The remote catalog is injected as
`catalog`; filters combine with AND semantics; an invalid extent rectangle
(min > max) fails with `InvalidFilterError` and an empty intersection is an
empty table, not an error. -/
def get_stations (catalog : List StationRec) (q : StationQuery) :
    Except HydroError (List StationRec) :=
  match q.extent with
  | some e =>
      if validExtent e then .ok (catalog.filter (matchesQuery q))
      else .error .invalidFilter
  | none => .ok (catalog.filter (matchesQuery q))

/-- Modelled from the spec: the input table of `find_duplicates` (§4.2), a
tabular structure whose geometry column and provider column may each be absent
(the implementation `efashydro/stations.py` is not under `src/`). `geometry`
is the list of point locations; `provider` is the `provider_col` column, whose
individual values may also be missing. -/
structure StationTable where
  geometry : Option (List (ℚ × ℚ))
  provider : Option (List (Option String))

/-- The provider value of station `i`: missing when the provider column is
absent from the table or the station's own value is missing. -/
def StationTable.providerAt (t : StationTable) (i : Nat) : Option String :=
  match t.provider with
  | none => none
  | some ps => ps.getD i none

/-- Two provider values count as the same provider only when both are present
and equal; a missing provider is a wildcard that equals no other provider. -/
def provEq : Option String → Option String → Bool
  | some a, some b => decide (a = b)
  | _, _ => false

/-- Squared planar distance between two points. -/
def sqDist (p q : ℚ × ℚ) : ℚ :=
  (p.1 - q.1) * (p.1 - q.1) + (p.2 - q.2) * (p.2 - q.2)

/-- Modelled from the spec: the candidate-duplicate-pair relation of §4.2 step 2
(the implementation `efashydro/stations.py` is not under `src/`). Indices `i`
and `j` are adjacent iff they are distinct in-range stations, within the
distance threshold (inclusive; compared on squares), and do not share a known
provider. -/
def dupAdj (pts : List (ℚ × ℚ)) (prov : Nat → Option String) (thr : ℚ)
    (i j : Nat) : Bool :=
  decide (i ≠ j) && decide (i < pts.length) && decide (j < pts.length) &&
  decide (sqDist (pts.getD i (0, 0)) (pts.getD j (0, 0)) ≤ thr * thr) &&
  !provEq (prov i) (prov j)

/-- One breadth-first growth step: append every new in-range vertex adjacent to
the current component. -/
def growOnce (adj : Nat → Nat → Bool) (n : Nat) (c : List Nat) : List Nat :=
  c ++ (List.range n).filter (fun j => !(decide (j ∈ c)) && c.any (fun i => adj i j))

/-- Iterate `growOnce` a fixed number of times. -/
def growN (adj : Nat → Nat → Bool) (n : Nat) : Nat → List Nat → List Nat
  | 0, c => c
  | k + 1, c => growN adj n k (growOnce adj n c)

/-- The connected component of vertex `i`: `n` growth steps from `[i]` reach a
fixed point on a graph with `n` vertices. -/
def component (adj : Nat → Nat → Bool) (n i : Nat) : List Nat :=
  growN adj n n [i]

/-- Whether vertex `i` has at least one edge. -/
def hasEdge (adj : Nat → Nat → Bool) (n i : Nat) : Bool :=
  (List.range n).any (fun j => adj i j)

/-- Scan the vertices in increasing order; each not-yet-grouped vertex with at
least one edge contributes its connected component as a new group, in order of
first discovery. -/
def dupGroupsAux (adj : Nat → Nat → Bool) (n : Nat) :
    List Nat → List (List Nat) → List (List Nat)
  | [], gs => gs
  | i :: l, gs =>
      dupGroupsAux adj n l
        (if gs.any (fun g => decide (i ∈ g)) then gs
         else if hasEdge adj n i then gs ++ [component adj n i] else gs)

/-- The duplicate groups of an adjacency relation on `n` vertices. -/
def dupGroups (adj : Nat → Nat → Bool) (n : Nat) : List (List Nat) :=
  dupGroupsAux adj n (List.range n) []

/-- Modelled from the spec: `find_duplicates` of §4.2 (its implementation
`efashydro/stations.py` is not under `src/`). A table without a geometry
column fails with `MissingColumnError`; a non-positive threshold fails with
`InvalidParameterError`; otherwise the groups are the connected components,
restricted to vertices with at least one edge, of the candidate-duplicate
graph, emitted in order of first discovery. -/
def find_duplicates (t : StationTable) (thr : ℚ) :
    Except HydroError (List (List Nat)) :=
  match t.geometry with
  | none => .error .missingColumn
  | some pts =>
      if 0 < thr then .ok (dupGroups (dupAdj pts t.providerAt thr) pts.length)
      else .error .invalidParameter

/-- Reachability in the undirected candidate graph: the reflexive-transitive
closure of the adjacency relation. -/
inductive Reach (adj : Nat → Nat → Bool) : Nat → Nat → Prop
  | refl (i : Nat) : Reach adj i i
  | tail {i j k : Nat} : Reach adj i j → adj j k = true → Reach adj i k

/-- Invariant of the group-building scan after the vertices below `m` have been
processed: every emitted group is the component of a discovery vertex below `m`
that has an edge and is the minimum of its component; every edged vertex below
`m` is already in a group; and groups are ordered by their discovery vertex. -/
def DupInv (adj : Nat → Nat → Bool) (n m : Nat) (gs : List (List Nat)) : Prop :=
  (∀ g ∈ gs, ∃ d, d < m ∧ hasEdge adj n d = true ∧ g = component adj n d ∧
      ∀ x, Reach adj d x → d ≤ x) ∧
  (∀ v, v < m → hasEdge adj n v = true → ∃ g ∈ gs, v ∈ g) ∧
  List.Pairwise (fun g h => ∃ a ∈ g, ∀ b ∈ h, a < b) gs

/-- One station's single-variable time series, the per-station
`pandas.DataFrame` held in `time_series[efas_id]` of
`notebook/glofas_calibration.ipynb`: rows of (timestamp, value). -/
abbrev Series := List (Nat × Int)

/-- Value of a series at a timestamp, `none` when the timestamp is absent. -/
def tsLookup (s : Series) (t : Nat) : Option Int :=
  (s.find? (fun p => p.1 == t)).map Prod.snd

/-- Insert a timestamp into a sorted duplicate-free index, keeping it sorted
and duplicate-free. -/
def insertTime (a : Nat) : List Nat → List Nat
  | [] => [a]
  | b :: l => if a < b then a :: b :: l
              else if a = b then b :: l
              else b :: insertTime a l

/-- The sorted union of the timestamp indexes of all the series: the row index
`pandas` produces when concatenating the per-station tables column-wise. -/
def unionIndex (ts : List Series) : List Nat :=
  ts.foldr (fun s u => s.foldr (fun p u2 => insertTime p.1 u2) u) []

/-- The wide table of the notebook's export cell: one row per timestamp, one
column per station, missing entries where a station has no data. -/
abbrev WideTable := List (Nat × List (Option Int))

/-- Column-wise concatenation of the per-station tables, the
`ts_df = pd.concat(ts_list, axis=1)` step of `notebook/glofas_calibration.ipynb`:
rows are indexed by the sorted union of the timestamps, and column `j` carries
station `j`'s value where present. -/
def concatSeries (ts : List Series) : WideTable :=
  (unionIndex ts).map (fun t => (t, ts.map (fun s => tsLookup s t)))

/-- Split one station's column back out of the wide table, dropping the rows
where that station has no value. -/
def splitCol (w : WideTable) (j : Nat) : Series :=
  w.filterMap (fun r =>
    match r.2.getD j none with
    | some v => some (r.1, v)
    | none => none)

/-- The complete daily index from `start` to `stop` inclusive, the
`dates = pd.date_range(START, END, freq='D')` of
`notebook/glofas_calibration.ipynb`, with days as consecutive naturals. -/
def dateRange (start stop : Nat) : List Nat :=
  (List.range (stop + 1 - start)).map (fun k => start + k)

/-- The row of the wide table at a timestamp, if any. -/
def wideLookup (w : WideTable) (t : Nat) : Option (List (Option Int)) :=
  (w.find? (fun r => r.1 == t)).map Prod.snd

/-- Reindex the wide table to a new index, the `ts_df.reindex(dates)` of
`notebook/glofas_calibration.ipynb`: one row per new index entry, all-missing
where the old table has no row. -/
def reindexWide (w : WideTable) (ds : List Nat) (ncols : Nat) : WideTable :=
  ds.map (fun d => (d, (wideLookup w d).getD (List.replicate ncols none)))

/-- The export step of `notebook/glofas_calibration.ipynb`: when the wide
table's row count differs from the number of days between `start` and `stop`,
reindex it to the complete daily range. -/
def exportWide (start stop ncols : Nat) (w : WideTable) : WideTable :=
  if w.length = (dateRange start stop).length then w
  else reindexWide w (dateRange start stop) ncols

/-- Concrete three-station fixture: a chain of collinear points one unit
apart, with three distinct providers. -/
def wPts : List (ℚ × ℚ) := [(0, 0), (1, 0), (2, 0)]

/-- Providers of the fixture stations, pairwise distinct. -/
def wProv : List (Option String) := [some ("a"), some ("b"), some ("c")]

/-- The fixture station table. -/
def wTable : StationTable := { geometry := some wPts, provider := some wProv }

/-- Fixture series for the concat round trip: two timestamps. -/
def wSeriesA : Series := [(0, 5), (2, 8)]

/-- Fixture series for the concat round trip: one timestamp, interleaved. -/
def wSeriesB : Series := [(1, 7)]

/-- Fixture collection of per-station series. -/
def wTs : List Series := [wSeriesA, wSeriesB]

/-- Fixture wide table with a gap at day 1 of the period 0..2. -/
def wWide : WideTable := [(0, [some 5]), (2, [some 8])]

/-- C4: a `get_timeseries` call whose `service` is not one of the six enumerated
codes fails with `InvalidParameterError`, and does so before any network call:
the outcome is the same for every remote response `history`. -/
theorem claim_C4_unknown_service (service : String) (start stop : Option Nat)
    (h : service ∉ serviceCodes) (history : List (Nat × Int)) :
    get_timeseries service start stop history = .error .invalidParameter ∧
    ∀ history2 : List (Nat × Int),
      get_timeseries service start stop history =
        get_timeseries service start stop history2 := by
  constructor
  · simp [get_timeseries, h]
  · intro history2
    simp [get_timeseries, h]

/-- Witness for C4 at the concrete service code used by the repository's own
notebooks, which is absent from the enumerated list. -/
theorem claim_C4_unknown_service_witness :
    ("nhoperational24hw" : String) ∉ serviceCodes ∧
    get_timeseries ("nhoperational24hw") none none [] = .error .invalidParameter := by
  have h : ("nhoperational24hw" : String) ∉ serviceCodes := by
    simp [serviceCodes]
  exact ⟨h, (claim_C4_unknown_service ("nhoperational24hw") none none h []).1⟩

/-- C5: with both bounds supplied and `start ≤ end`, every timestamp of the
result lies in the closed window `[start, end]`; with `start > end` the call
fails with `InvalidParameterError`; with both bounds omitted the full available
history is returned. -/
theorem claim_C5_clipping (service : String)
    (hs : service ∈ serviceCodes) :
    (∀ (s e : Nat) (history out : List (Nat × Int)), s ≤ e →
        get_timeseries service (some s) (some e) history = .ok out →
        ∀ p ∈ out, s ≤ p.1 ∧ p.1 ≤ e) ∧
    (∀ (s e : Nat) (history : List (Nat × Int)), e < s →
        get_timeseries service (some s) (some e) history = .error .invalidParameter) ∧
    (∀ history : List (Nat × Int),
        get_timeseries service none none history = .ok history) := by
  refine ⟨?_, ?_, ?_⟩
  · intro s e history out hse hok p hp
    have hfilter : get_timeseries service (some s) (some e) history
        = .ok (history.filter (fun p => decide (s ≤ p.1) && decide (p.1 ≤ e))) := by
      simp [get_timeseries, hs, hse]
    rw [hfilter] at hok
    simp only [Except.ok.injEq] at hok
    rw [← hok] at hp
    have := List.of_mem_filter hp
    simpa using this
  · intro s e history hes
    have : ¬ s ≤ e := by omega
    simp [get_timeseries, hs, this]
  · intro history
    simp [get_timeseries, hs]

/-- Witness for C5 at a concrete recognized service code. -/
theorem claim_C5_clipping_witness :
    ("noperational24h" : String) ∈ serviceCodes ∧
    (∀ history : List (Nat × Int),
        get_timeseries ("noperational24h") none none history = .ok history) := by
  have h : ("noperational24h" : String) ∈ serviceCodes := by
    simp [serviceCodes]
  exact ⟨h, (claim_C5_clipping ("noperational24h") h).2.2⟩

/-- C6: under an `extent` filter, every returned station lies inside the closed
rectangle, no station outside the rectangle is ever returned, and an invalid
rectangle (a minimum exceeding its maximum) fails with `InvalidFilterError`. -/
theorem claim_C6_extent (catalog : List StationRec) (q : StationQuery) (e : Extent)
    (hq : q.extent = some e) :
    (validExtent e = true →
      ∃ out, get_stations catalog q = .ok out ∧
        (∀ s ∈ out, insideExtent e s = true) ∧
        (∀ s ∈ catalog, insideExtent e s = false → s ∉ out)) ∧
    (validExtent e = false →
      get_stations catalog q = .error .invalidFilter) := by
  constructor
  · intro hv
    refine ⟨catalog.filter (matchesQuery q), ?_, ?_, ?_⟩
    · simp [get_stations, hq, hv]
    · intro s hs
      have hm := List.of_mem_filter hs
      simp only [matchesQuery, hq, Bool.and_eq_true] at hm
      exact hm.2
    · intro s _ hout hsmem
      have hm := List.of_mem_filter hsmem
      simp only [matchesQuery, hq, Bool.and_eq_true] at hm
      rw [hm.2] at hout
      cases hout
  · intro hv
    simp [get_stations, hq, hv]

/-- Witness for C6 at a concrete catalog and extent query. -/
theorem claim_C6_extent_witness :
    ({ kind := none, country := none, provider := none, basin := none,
       stationId := none,
       extent := some { minLon := 0, minLat := 0, maxLon := 1, maxLat := 1 } :
       StationQuery }).extent =
      some { minLon := 0, minLat := 0, maxLon := 1, maxLat := 1 } ∧
    validExtent { minLon := 0, minLat := 0, maxLon := 1, maxLat := 1 } = true ∧
    ∃ out,
      get_stations []
        { kind := none, country := none, provider := none, basin := none,
          stationId := none,
          extent := some { minLon := 0, minLat := 0, maxLon := 1, maxLat := 1 } } =
        .ok out ∧
      (∀ s ∈ out, insideExtent { minLon := 0, minLat := 0, maxLon := 1, maxLat := 1 } s = true) ∧
      (∀ s ∈ ([] : List StationRec),
        insideExtent { minLon := 0, minLat := 0, maxLon := 1, maxLat := 1 } s = false →
        s ∉ out) := by
  refine ⟨rfl, by decide, ?_⟩
  exact (claim_C6_extent []
    { kind := none, country := none, provider := none, basin := none,
      stationId := none,
      extent := some { minLon := 0, minLat := 0, maxLon := 1, maxLat := 1 } }
    { minLon := 0, minLat := 0, maxLon := 1, maxLat := 1 } rfl).1 (by decide)

theorem Reach.trans {adj : Nat → Nat → Bool} {i j k : Nat}
    (h1 : Reach adj i j) (h2 : Reach adj j k) : Reach adj i k := by
  induction h2 with
  | refl => exact h1
  | tail _ e ih => exact Reach.tail ih e

theorem Reach.single {adj : Nat → Nat → Bool} {i j : Nat}
    (h : adj i j = true) : Reach adj i j :=
  Reach.tail (Reach.refl i) h

theorem Reach.symm {adj : Nat → Nat → Bool}
    (hsym : ∀ i j, adj i j = adj j i) {i j : Nat}
    (h : Reach adj i j) : Reach adj j i := by
  induction h with
  | refl => exact Reach.refl _
  | tail _ e ih =>
      exact Reach.trans (Reach.single (by rw [hsym]; exact e)) ih

theorem reach_last_edge {adj : Nat → Nat → Bool} {i x : Nat}
    (h : Reach adj i x) (hne : i ≠ x) : ∃ j, adj j x = true := by
  induction h with
  | refl => exact absurd rfl hne
  | tail _ e _ => exact ⟨_, e⟩

theorem mem_growOnce {adj : Nat → Nat → Bool} {n : Nat} {c : List Nat} {j : Nat} :
    j ∈ growOnce adj n c ↔ j ∈ c ∨ (j < n ∧ j ∉ c ∧ ∃ i ∈ c, adj i j = true) := by
  simp [growOnce, List.mem_filter, List.mem_range, List.any_eq_true, and_assoc]

theorem subset_growOnce {adj : Nat → Nat → Bool} {n : Nat} {c : List Nat} :
    c ⊆ growOnce adj n c :=
  List.subset_append_left _ _

theorem growN_succ_out {adj : Nat → Nat → Bool} {n : Nat} :
    ∀ (k : Nat) (c : List Nat),
      growN adj n (k + 1) c = growOnce adj n (growN adj n k c) := by
  intro k
  induction k with
  | zero => intro c; rfl
  | succ k ih =>
      intro c
      show growN adj n (k + 1) (growOnce adj n c) = _
      rw [ih (growOnce adj n c)]
      rfl

theorem subset_growN {adj : Nat → Nat → Bool} {n : Nat} :
    ∀ (k : Nat) (c : List Nat), c ⊆ growN adj n k c := by
  intro k
  induction k with
  | zero => intro c; exact fun x hx => hx
  | succ k ih =>
      intro c
      exact fun x hx => ih (growOnce adj n c) (subset_growOnce hx)

theorem growN_of_stable {adj : Nat → Nat → Bool} {n : Nat} {c : List Nat}
    (h : growOnce adj n c = c) : ∀ k, growN adj n k c = c := by
  intro k
  induction k with
  | zero => rfl
  | succ k ih => rw [growN_succ_out, ih, h]

theorem nodup_growOnce {adj : Nat → Nat → Bool} {n : Nat} {c : List Nat}
    (h : c.Nodup) : (growOnce adj n c).Nodup := by
  refine h.append ((List.nodup_range n).filter _) ?_
  intro a ha hafil
  have := List.of_mem_filter hafil
  simp at this
  exact this.1 ha

theorem bounded_growOnce {adj : Nat → Nat → Bool} {n : Nat} {c : List Nat}
    {x : Nat} (h : x ∈ growOnce adj n c) : x ∈ c ∨ x < n := by
  rcases mem_growOnce.mp h with h1 | h2
  · exact Or.inl h1
  · exact Or.inr h2.1

theorem nodup_growN {adj : Nat → Nat → Bool} {n : Nat} :
    ∀ (k : Nat) (c : List Nat), c.Nodup → (growN adj n k c).Nodup := by
  intro k
  induction k with
  | zero => intro c h; exact h
  | succ k ih => intro c h; exact ih (growOnce adj n c) (nodup_growOnce h)

theorem bounded_growN {adj : Nat → Nat → Bool} {n : Nat} :
    ∀ (k : Nat) (c : List Nat) (x : Nat), x ∈ growN adj n k c → x ∈ c ∨ x < n := by
  intro k
  induction k with
  | zero => intro c x h; exact Or.inl h
  | succ k ih =>
      intro c x h
      rcases ih (growOnce adj n c) x h with h1 | h2
      · exact bounded_growOnce h1
      · exact Or.inr h2

theorem growOnce_progress {adj : Nat → Nat → Bool} {n : Nat} {c : List Nat}
    (h : growOnce adj n c ≠ c) : c.length + 1 ≤ (growOnce adj n c).length := by
  by_cases hfil :
      (List.range n).filter
        (fun j => !(decide (j ∈ c)) && c.any (fun i => adj i j)) = []
  · exact absurd (by simp [growOnce, hfil]) h
  · have hlen : 1 ≤ ((List.range n).filter
        (fun j => !(decide (j ∈ c)) && c.any (fun i => adj i j))).length := by
      rcases List.exists_mem_of_ne_nil _ hfil with ⟨a, ha⟩
      exact List.length_pos.mpr hfil
    simp only [growOnce, List.length_append]
    omega

theorem stable_or_length {adj : Nat → Nat → Bool} {n : Nat} (c : List Nat) :
    ∀ k, growOnce adj n (growN adj n k c) = growN adj n k c ∨
      c.length + k ≤ (growN adj n k c).length := by
  intro k
  induction k with
  | zero => exact Or.inr (by simp [growN])
  | succ k ih =>
      by_cases hst : growOnce adj n (growN adj n k c) = growN adj n k c
      · left
        rw [growN_succ_out, hst, hst]
      · right
        rcases ih with h1 | h2
        · exact absurd h1 hst
        · have := growOnce_progress hst
          rw [growN_succ_out]
          omega

theorem length_le_of_nodup_bounded {l : List Nat} {n : Nat}
    (h1 : l.Nodup) (h2 : ∀ x ∈ l, x < n) : l.length ≤ n := by
  have hsub : l ⊆ List.range n := fun x hx => List.mem_range.mpr (h2 x hx)
  have := List.subperm_of_subset h1 hsub
  simpa using this.length_le

theorem component_stable {adj : Nat → Nat → Bool} {n i : Nat} (hi : i < n) :
    growOnce adj n (component adj n i) = component adj n i := by
  rcases @stable_or_length adj n [i] n with h1 | h2
  · exact h1
  · exfalso
    have hnod : (growN adj n n [i]).Nodup := nodup_growN n [i] (by simp)
    have hbd : ∀ x ∈ growN adj n n [i], x < n := by
      intro x hx
      rcases bounded_growN n [i] x hx with h | h
      · simp at h; omega
      · exact h
    have := length_le_of_nodup_bounded hnod hbd
    simp at h2
    omega

theorem mem_component_self {adj : Nat → Nat → Bool} {n i : Nat} :
    i ∈ component adj n i :=
  subset_growN n [i] (by simp)

theorem growOnce_closed {adj : Nat → Nat → Bool} {n : Nat} {c : List Nat}
    (hst : growOnce adj n c = c) {i j : Nat}
    (hi : i ∈ c) (hadj : adj i j = true) (hj : j < n) : j ∈ c := by
  by_cases hjc : j ∈ c
  · exact hjc
  · have : j ∈ growOnce adj n c := mem_growOnce.mpr (Or.inr ⟨hj, hjc, i, hi, hadj⟩)
    rwa [hst] at this

theorem reach_of_mem_growN {adj : Nat → Nat → Bool} {n i0 : Nat} :
    ∀ (k : Nat) (c : List Nat), (∀ y ∈ c, Reach adj i0 y) →
      ∀ x ∈ growN adj n k c, Reach adj i0 x := by
  intro k
  induction k with
  | zero => intro c hc x hx; exact hc x hx
  | succ k ih =>
      intro c hc x hx
      refine ih (growOnce adj n c) ?_ x hx
      intro y hy
      rcases mem_growOnce.mp hy with h1 | ⟨_, _, i, hic, hadj⟩
      · exact hc y h1
      · exact Reach.tail (hc i hic) hadj

theorem component_sound {adj : Nat → Nat → Bool} {n i x : Nat}
    (h : x ∈ component adj n i) : Reach adj i x := by
  refine reach_of_mem_growN n [i] ?_ x h
  intro y hy
  simp at hy
  rw [hy]
  exact Reach.refl i

theorem mem_of_reach_closed {adj : Nat → Nat → Bool} {n : Nat} {c : List Nat}
    (hst : growOnce adj n c = c)
    (hbound : ∀ i j, adj i j = true → i < n ∧ j < n)
    {i x : Nat} (hi : i ∈ c) (h : Reach adj i x) : x ∈ c := by
  induction h with
  | refl => exact hi
  | tail _ e ih => exact growOnce_closed hst ih e (hbound _ _ e).2

theorem mem_component_iff {adj : Nat → Nat → Bool} {n i x : Nat}
    (hbound : ∀ i j, adj i j = true → i < n ∧ j < n) (hi : i < n) :
    x ∈ component adj n i ↔ Reach adj i x := by
  constructor
  · exact component_sound
  · exact fun h => mem_of_reach_closed (component_stable hi) hbound
      mem_component_self h

theorem nodup_component {adj : Nat → Nat → Bool} {n i : Nat} :
    (component adj n i).Nodup :=
  nodup_growN n [i] (by simp)

theorem hasEdge_iff {adj : Nat → Nat → Bool} {n i : Nat} :
    hasEdge adj n i = true ↔ ∃ j, j < n ∧ adj i j = true := by
  simp [hasEdge, List.any_eq_true, List.mem_range]

theorem hasEdge_of_adj {adj : Nat → Nat → Bool} {n i j : Nat}
    (hbound : ∀ i j, adj i j = true → i < n ∧ j < n)
    (h : adj i j = true) : hasEdge adj n i = true :=
  hasEdge_iff.mpr ⟨j, (hbound _ _ h).2, h⟩

theorem hasEdge_of_incoming {adj : Nat → Nat → Bool} {n j x : Nat}
    (hsym : ∀ i j, adj i j = adj j i)
    (hbound : ∀ i j, adj i j = true → i < n ∧ j < n)
    (h : adj j x = true) : hasEdge adj n x = true := by
  have hxj : adj x j = true := by rw [hsym]; exact h
  exact hasEdge_iff.mpr ⟨j, (hbound _ _ h).1, hxj⟩

theorem dupGroupsAux_inv {adj : Nat → Nat → Bool} {n : Nat}
    (hsym : ∀ i j, adj i j = adj j i)
    (hbound : ∀ i j, adj i j = true → i < n ∧ j < n) :
    ∀ (k m : Nat) (gs : List (List Nat)), m + k = n → DupInv adj n m gs →
      DupInv adj n n (dupGroupsAux adj n (List.range' m k) gs) := by
  intro k
  induction k with
  | zero =>
      intro m gs hmk hinv
      have hm : m = n := by omega
      subst hm
      simpa [dupGroupsAux] using hinv
  | succ k ih =>
      intro m gs hmk hinv
      obtain ⟨h1, h2, h3⟩ := hinv
      have hmn : m < n := by omega
      rw [List.range'_succ]
      simp only [dupGroupsAux]
      by_cases hvis : gs.any (fun g => decide (m ∈ g)) = true
      · rw [if_pos hvis]
        refine ih (m + 1) gs (by omega) ⟨?_, ?_, h3⟩
        · intro g hg
          rcases h1 g hg with ⟨d, hdm, hrest⟩
          exact ⟨d, by omega, hrest⟩
        · intro v hv hev
          by_cases hvm : v < m
          · exact h2 v hvm hev
          · have hveq : v = m := by omega
            subst hveq
            simp only [List.any_eq_true, decide_eq_true_eq] at hvis
            exact hvis
      · rw [if_neg hvis]
        by_cases hed : hasEdge adj n m = true
        · rw [if_pos hed]
          have hmin : ∀ x, Reach adj m x → m ≤ x := by
            intro x hx
            by_contra hcon
            push_neg at hcon
            have hne : m ≠ x := by omega
            rcases reach_last_edge hx hne with ⟨j, hj⟩
            have hex : hasEdge adj n x = true := hasEdge_of_incoming hsym hbound hj
            rcases h2 x (by omega) hex with ⟨g, hg, hxg⟩
            rcases h1 g hg with ⟨d, hdm, hde, hgc, hdmin⟩
            have hdx : Reach adj d x := component_sound (hgc ▸ hxg)
            have hdm2 : Reach adj d m := Reach.trans hdx (Reach.symm hsym hx)
            have hmg : m ∈ g := by
              rw [hgc]
              exact (mem_component_iff hbound (by omega)).mpr hdm2
            apply hvis
            simp only [List.any_eq_true, decide_eq_true_eq]
            exact ⟨g, hg, hmg⟩
          refine ih (m + 1) (gs ++ [component adj n m]) (by omega) ⟨?_, ?_, ?_⟩
          · intro g hg
            rcases List.mem_append.mp hg with hg1 | hg2
            · rcases h1 g hg1 with ⟨d, hdm, hrest⟩
              exact ⟨d, by omega, hrest⟩
            · have : g = component adj n m := by simpa using hg2
              exact ⟨m, by omega, hed, this, hmin⟩
          · intro v hv hev
            by_cases hvm : v < m
            · rcases h2 v hvm hev with ⟨g, hg, hvg⟩
              exact ⟨g, List.mem_append_left _ hg, hvg⟩
            · have hveq : v = m := by omega
              refine ⟨component adj n m, List.mem_append_right _ (by simp), ?_⟩
              rw [hveq]
              exact mem_component_self
          · rw [List.pairwise_append]
            refine ⟨h3, by simp, ?_⟩
            intro g hg g2 hg2
            have hg2c : g2 = component adj n m := by simpa using hg2
            rcases h1 g hg with ⟨d, hdm, hde, hgc, hdmin⟩
            refine ⟨d, ?_, ?_⟩
            · rw [hgc]; exact mem_component_self
            · intro b hb
              rw [hg2c] at hb
              have := hmin b (component_sound hb)
              omega
        · rw [if_neg hed]
          refine ih (m + 1) gs (by omega) ⟨?_, ?_, h3⟩
          · intro g hg
            rcases h1 g hg with ⟨d, hdm, hrest⟩
            exact ⟨d, by omega, hrest⟩
          · intro v hv hev
            by_cases hvm : v < m
            · exact h2 v hvm hev
            · have hveq : v = m := by omega
              subst hveq
              exact absurd hev hed

theorem dupGroups_inv {adj : Nat → Nat → Bool} {n : Nat}
    (hsym : ∀ i j, adj i j = adj j i)
    (hbound : ∀ i j, adj i j = true → i < n ∧ j < n) :
    DupInv adj n n (dupGroups adj n) := by
  have h0 : DupInv adj n 0 [] := by
    refine ⟨?_, ?_, ?_⟩
    · intro g hg; simp at hg
    · intro v hv; omega
    · simp
  have := dupGroupsAux_inv hsym hbound n 0 [] (by omega) h0
  simpa [dupGroups, List.range_eq_range'] using this

theorem mem_dupGroups_iff {adj : Nat → Nat → Bool} {n x : Nat}
    (hsym : ∀ i j, adj i j = adj j i)
    (hbound : ∀ i j, adj i j = true → i < n ∧ j < n) :
    (∃ g ∈ dupGroups adj n, x ∈ g) ↔ hasEdge adj n x = true := by
  have hinv := dupGroups_inv hsym hbound
  constructor
  · rintro ⟨g, hg, hxg⟩
    rcases hinv.1 g hg with ⟨d, _, hde, hgc, _⟩
    have hdx : Reach adj d x := component_sound (hgc ▸ hxg)
    by_cases hdeq : d = x
    · rw [← hdeq]; exact hde
    · rcases reach_last_edge hdx hdeq with ⟨j, hj⟩
      exact hasEdge_of_incoming hsym hbound hj
  · intro hx
    have hxn : x < n := by
      rcases hasEdge_iff.mp hx with ⟨j, _, hadj⟩
      exact (hbound _ _ hadj).1
    exact hinv.2.1 x hxn hx

theorem same_dupGroup_iff {adj : Nat → Nat → Bool} {n i j : Nat}
    (hsym : ∀ i j, adj i j = adj j i)
    (hbound : ∀ i j, adj i j = true → i < n ∧ j < n) :
    (∃ g ∈ dupGroups adj n, i ∈ g ∧ j ∈ g) ↔
      Reach adj i j ∧ hasEdge adj n i = true := by
  have hinv := dupGroups_inv hsym hbound
  constructor
  · rintro ⟨g, hg, hig, hjg⟩
    rcases hinv.1 g hg with ⟨d, _, _, hgc, _⟩
    have hdi : Reach adj d i := component_sound (hgc ▸ hig)
    have hdj : Reach adj d j := component_sound (hgc ▸ hjg)
    exact ⟨Reach.trans (Reach.symm hsym hdi) hdj,
      (mem_dupGroups_iff hsym hbound).mp ⟨g, hg, hig⟩⟩
  · rintro ⟨hreach, hedge⟩
    rcases (mem_dupGroups_iff hsym hbound).mpr hedge with ⟨g, hg, hig⟩
    rcases hinv.1 g hg with ⟨d, hdn, _, hgc, _⟩
    have hdi : Reach adj d i := component_sound (hgc ▸ hig)
    have hdj : Reach adj d j := Reach.trans hdi hreach
    refine ⟨g, hg, hig, ?_⟩
    rw [hgc]
    exact (mem_component_iff hbound (by omega)).mpr hdj

theorem dupGroups_disjoint {adj : Nat → Nat → Bool} {n : Nat}
    (hsym : ∀ i j, adj i j = adj j i)
    (hbound : ∀ i j, adj i j = true → i < n ∧ j < n) :
    List.Pairwise (fun g h => ∀ x, x ∈ g → x ∉ h) (dupGroups adj n) := by
  have hinv := dupGroups_inv hsym hbound
  refine List.Pairwise.imp_of_mem ?_ hinv.2.2
  intro g h hg hh hlt x hxg hxh
  rcases hinv.1 g hg with ⟨d1, _, _, hgc1, hmin1⟩
  rcases hinv.1 h hh with ⟨d2, _, _, hgc2, hmin2⟩
  have hd1x : Reach adj d1 x := component_sound (hgc1 ▸ hxg)
  have hd2x : Reach adj d2 x := component_sound (hgc2 ▸ hxh)
  have h12 : Reach adj d1 d2 := Reach.trans hd1x (Reach.symm hsym hd2x)
  have h21 : Reach adj d2 d1 := Reach.trans hd2x (Reach.symm hsym hd1x)
  have hdeq : d1 = d2 := le_antisymm (hmin1 d2 h12) (hmin2 d1 h21)
  have hgh : g = h := by rw [hgc1, hgc2, hdeq]
  rcases hlt with ⟨a, hag, halt⟩
  exact absurd (halt a (hgh ▸ hag)) (lt_irrefl a)

theorem two_le_length_of_two_mem {α : Type} {l : List α} {a b : α}
    (ha : a ∈ l) (hb : b ∈ l) (hab : a ≠ b) : 2 ≤ l.length := by
  cases l with
  | nil => simp at ha
  | cons x xs =>
      cases xs with
      | nil =>
          simp at ha hb
          rw [ha, hb] at hab
          exact absurd rfl hab
      | cons y ys => simp only [List.length_cons]; omega

theorem dupGroups_sizes {adj : Nat → Nat → Bool} {n : Nat}
    (hsym : ∀ i j, adj i j = adj j i)
    (hbound : ∀ i j, adj i j = true → i < n ∧ j < n)
    (hirr : ∀ i, adj i i = false) :
    ∀ g ∈ dupGroups adj n, g.Nodup ∧ 2 ≤ g.length := by
  have hinv := dupGroups_inv hsym hbound
  intro g hg
  rcases hinv.1 g hg with ⟨d, hdn, hde, hgc, _⟩
  rcases hasEdge_iff.mp hde with ⟨j, hjn, hadj⟩
  have hdj : d ≠ j := by
    intro hcon
    rw [hcon] at hadj
    rw [hirr j] at hadj
    cases hadj
  have hdg : d ∈ g := by rw [hgc]; exact mem_component_self
  have hjg : j ∈ g := by
    rw [hgc]
    exact (mem_component_iff hbound (by omega)).mpr (Reach.single hadj)
  constructor
  · rw [hgc]; exact nodup_component
  · exact two_le_length_of_two_mem hdg hjg hdj

theorem sqDist_symm (p q : ℚ × ℚ) : sqDist p q = sqDist q p := by
  simp only [sqDist]
  ring

theorem provEq_symm (a b : Option String) : provEq a b = provEq b a := by
  cases a <;> cases b <;> simp [provEq, eq_comm]

theorem dupAdj_symm (pts : List (ℚ × ℚ)) (prov : Nat → Option String) (thr : ℚ) :
    ∀ i j, dupAdj pts prov thr i j = dupAdj pts prov thr j i := by
  intro i j
  rw [Bool.eq_iff_iff]
  simp only [dupAdj, Bool.and_eq_true, decide_eq_true_eq, Bool.not_eq_true']
  rw [sqDist_symm (pts.getD i (0, 0)) (pts.getD j (0, 0)),
    provEq_symm (prov i) (prov j), ne_comm]
  tauto

theorem dupAdj_bound (pts : List (ℚ × ℚ)) (prov : Nat → Option String) (thr : ℚ) :
    ∀ i j, dupAdj pts prov thr i j = true → i < pts.length ∧ j < pts.length := by
  intro i j h
  simp only [dupAdj, Bool.and_eq_true, decide_eq_true_eq] at h
  exact ⟨h.1.1.1.2, h.1.1.2⟩

theorem dupAdj_irrefl (pts : List (ℚ × ℚ)) (prov : Nat → Option String) (thr : ℚ) :
    ∀ i, dupAdj pts prov thr i i = false := by
  intro i
  simp [dupAdj]

theorem find_duplicates_none {t : StationTable} (hg : t.geometry = none)
    (thr : ℚ) : find_duplicates t thr = .error .missingColumn := by
  unfold find_duplicates
  rw [hg]

theorem find_duplicates_nonpos {t : StationTable} {pts : List (ℚ × ℚ)}
    (hg : t.geometry = some pts) {thr : ℚ} (hthr : ¬ 0 < thr) :
    find_duplicates t thr = .error .invalidParameter := by
  unfold find_duplicates
  rw [hg]
  simp [hthr]

theorem find_duplicates_some {t : StationTable} {pts : List (ℚ × ℚ)}
    (hg : t.geometry = some pts) {thr : ℚ} (hthr : 0 < thr) :
    find_duplicates t thr =
      .ok (dupGroups (dupAdj pts t.providerAt thr) pts.length) := by
  unfold find_duplicates
  rw [hg]
  simp [hthr]

theorem find_duplicates_ok_inv {t : StationTable} {thr : ℚ}
    {gs : List (List Nat)} (h : find_duplicates t thr = .ok gs) :
    ∃ pts, t.geometry = some pts ∧ 0 < thr ∧
      gs = dupGroups (dupAdj pts t.providerAt thr) pts.length := by
  cases hgeo : t.geometry with
  | none =>
      rw [find_duplicates_none hgeo] at h
      exact Except.noConfusion h
  | some pts =>
      by_cases hthr : 0 < thr
      · rw [find_duplicates_some hgeo hthr] at h
        simp only [Except.ok.injEq] at h
        exact ⟨pts, rfl, hthr, h.symm⟩
      · rw [find_duplicates_nonpos hgeo hthr] at h
        exact Except.noConfusion h

theorem dupGroups_le_one {adj : Nat → Nat → Bool} {n : Nat}
    (hirr : ∀ i, adj i i = false) (hn : n ≤ 1) : dupGroups adj n = [] := by
  rcases Nat.le_one_iff_eq_zero_or_eq_one.mp hn with h | h <;> subst h
  · rfl
  · have hr : List.range 1 = [0] := rfl
    simp [dupGroups, dupGroupsAux, hasEdge, hr, hirr]

/-- C1: in any station table holding three stations `a`, `b`, `c` with pairwise
differing providers, `a`-`b` and `b`-`c` within the threshold but `a`-`c`
beyond it, `find_duplicates` emits all three in one single group; moreover the
groups are exactly the connected components of the candidate-pair graph
restricted to vertices with at least one edge (two stations share a group iff
they are connected and have an edge). -/
theorem claim_C1_chain_components (t : StationTable) (pts : List (ℚ × ℚ))
    (thr : ℚ) (a b c : Nat)
    (hg : t.geometry = some pts) (hthr : 0 < thr)
    (ha : a < pts.length) (hb : b < pts.length) (hc : c < pts.length)
    (hab : a ≠ b) (hbc : b ≠ c) (hac : a ≠ c)
    (pab : provEq (t.providerAt a) (t.providerAt b) = false)
    (pbc : provEq (t.providerAt b) (t.providerAt c) = false)
    (pac : provEq (t.providerAt a) (t.providerAt c) = false)
    (dab : sqDist (pts.getD a (0, 0)) (pts.getD b (0, 0)) ≤ thr * thr)
    (dbc : sqDist (pts.getD b (0, 0)) (pts.getD c (0, 0)) ≤ thr * thr)
    (dac : thr * thr < sqDist (pts.getD a (0, 0)) (pts.getD c (0, 0))) :
    ∃ gs, find_duplicates t thr = .ok gs ∧
      (∃ g ∈ gs, a ∈ g ∧ b ∈ g ∧ c ∈ g) ∧
      (∀ i j, (∃ g ∈ gs, i ∈ g ∧ j ∈ g) ↔
        Reach (dupAdj pts t.providerAt thr) i j ∧
        hasEdge (dupAdj pts t.providerAt thr) pts.length i = true) := by
  have hsym := dupAdj_symm pts t.providerAt thr
  have hbound := dupAdj_bound pts t.providerAt thr
  have eab : dupAdj pts t.providerAt thr a b = true := by
    simp only [dupAdj, Bool.and_eq_true, decide_eq_true_eq, Bool.not_eq_true']
    exact ⟨⟨⟨⟨hab, ha⟩, hb⟩, dab⟩, pab⟩
  have ebc : dupAdj pts t.providerAt thr b c = true := by
    simp only [dupAdj, Bool.and_eq_true, decide_eq_true_eq, Bool.not_eq_true']
    exact ⟨⟨⟨⟨hbc, hb⟩, hc⟩, dbc⟩, pbc⟩
  have rab : Reach (dupAdj pts t.providerAt thr) a b := Reach.single eab
  have rbc : Reach (dupAdj pts t.providerAt thr) b c := Reach.single ebc
  have rac : Reach (dupAdj pts t.providerAt thr) a c := Reach.trans rab rbc
  have hea : hasEdge (dupAdj pts t.providerAt thr) pts.length a = true :=
    hasEdge_of_adj hbound eab
  refine ⟨dupGroups (dupAdj pts t.providerAt thr) pts.length,
    find_duplicates_some hg hthr, ?_, fun i j => same_dupGroup_iff hsym hbound⟩
  rcases (same_dupGroup_iff hsym hbound).mpr ⟨rab, hea⟩ with ⟨g1, hg1, hag1, hbg1⟩
  rcases (same_dupGroup_iff hsym hbound).mpr ⟨rac, hea⟩ with ⟨g2, hg2, hag2, hcg2⟩
  by_cases heq : g1 = g2
  · refine ⟨g1, hg1, hag1, hbg1, ?_⟩
    rw [heq]
    exact hcg2
  · have hdisj := dupGroups_disjoint hsym hbound
    have hsymm : Symmetric (fun g h : List Nat => ∀ x, x ∈ g → x ∉ h) := by
      intro g h hgh x hxh hxg
      exact hgh x hxg hxh
    exact absurd hag2 (hdisj.forall hsymm hg1 hg2 heq a hag1)

/-- Witness for C1 on the three-station fixture with threshold 1. -/
theorem claim_C1_chain_components_witness :
    wTable.geometry = some wPts ∧ (0 : ℚ) < 1 ∧
    sqDist (wPts.getD 0 (0, 0)) (wPts.getD 1 (0, 0)) ≤ 1 * 1 ∧
    sqDist (wPts.getD 1 (0, 0)) (wPts.getD 2 (0, 0)) ≤ 1 * 1 ∧
    (1 : ℚ) * 1 < sqDist (wPts.getD 0 (0, 0)) (wPts.getD 2 (0, 0)) ∧
    ∃ gs, find_duplicates wTable 1 = .ok gs ∧
      (∃ g ∈ gs, 0 ∈ g ∧ 1 ∈ g ∧ 2 ∈ g) ∧
      (∀ i j, (∃ g ∈ gs, i ∈ g ∧ j ∈ g) ↔
        Reach (dupAdj wPts wTable.providerAt 1) i j ∧
        hasEdge (dupAdj wPts wTable.providerAt 1) wPts.length i = true) :=
  ⟨rfl, by decide, by with_unfolding_all decide, by with_unfolding_all decide,
    by with_unfolding_all decide,
    claim_C1_chain_components wTable wPts 1 0 1 2 rfl (by decide)
      (by decide) (by decide) (by decide) (by decide) (by decide) (by decide)
      (by with_unfolding_all decide) (by with_unfolding_all decide)
      (by with_unfolding_all decide) (by with_unfolding_all decide)
      (by with_unfolding_all decide) (by with_unfolding_all decide)⟩

/-- C2: with a positive threshold, a pair of distinct stations with differing
providers at distance exactly the threshold (squared distance equal to the
squared threshold) is a candidate pair — inclusive boundary — and hence both
stations land together in some duplicate group; and any pair at distance
strictly beyond the threshold is never a candidate pair. -/
theorem claim_C2_threshold_boundary (t : StationTable) (pts : List (ℚ × ℚ))
    (thr : ℚ) (hg : t.geometry = some pts) (hthr : 0 < thr) :
    (∀ i j, i < pts.length → j < pts.length → i ≠ j →
      provEq (t.providerAt i) (t.providerAt j) = false →
      sqDist (pts.getD i (0, 0)) (pts.getD j (0, 0)) = thr * thr →
      dupAdj pts t.providerAt thr i j = true ∧
      ∃ gs, find_duplicates t thr = .ok gs ∧ ∃ g ∈ gs, i ∈ g ∧ j ∈ g) ∧
    (∀ i j, thr * thr < sqDist (pts.getD i (0, 0)) (pts.getD j (0, 0)) →
      dupAdj pts t.providerAt thr i j = false) := by
  have hsym := dupAdj_symm pts t.providerAt thr
  have hbound := dupAdj_bound pts t.providerAt thr
  constructor
  · intro i j hi hj hij hprov hdist
    have eij : dupAdj pts t.providerAt thr i j = true := by
      simp only [dupAdj, Bool.and_eq_true, decide_eq_true_eq, Bool.not_eq_true']
      exact ⟨⟨⟨⟨hij, hi⟩, hj⟩, le_of_eq hdist⟩, hprov⟩
    refine ⟨eij, dupGroups (dupAdj pts t.providerAt thr) pts.length,
      find_duplicates_some hg hthr, ?_⟩
    exact (same_dupGroup_iff hsym hbound).mpr
      ⟨Reach.single eij, hasEdge_of_adj hbound eij⟩
  · intro i j hfar
    cases hcase : dupAdj pts t.providerAt thr i j with
    | false => rfl
    | true =>
        exfalso
        simp only [dupAdj, Bool.and_eq_true, decide_eq_true_eq] at hcase
        exact absurd hcase.1.2 (not_le.mpr hfar)

/-- Witness for C2 on the fixture: stations 0 and 1 are at distance exactly the
threshold 1. -/
theorem claim_C2_threshold_boundary_witness :
    wTable.geometry = some wPts ∧ (0 : ℚ) < 1 ∧
    ((∀ i j, i < wPts.length → j < wPts.length → i ≠ j →
      provEq (wTable.providerAt i) (wTable.providerAt j) = false →
      sqDist (wPts.getD i (0, 0)) (wPts.getD j (0, 0)) = 1 * 1 →
      dupAdj wPts wTable.providerAt 1 i j = true ∧
      ∃ gs, find_duplicates wTable 1 = .ok gs ∧ ∃ g ∈ gs, i ∈ g ∧ j ∈ g) ∧
    (∀ i j, (1 : ℚ) * 1 < sqDist (wPts.getD i (0, 0)) (wPts.getD j (0, 0)) →
      dupAdj wPts wTable.providerAt 1 i j = false)) :=
  ⟨rfl, by decide, claim_C2_threshold_boundary wTable wPts 1 rfl (by decide)⟩

/-- C3: every edge of the candidate graph joins stations that do not share a
known provider; a station with a missing provider value carries a wildcard that
equals no other station's provider in either direction (so the provider test
never blocks such a pair, even two missing-provider stations); and when the
provider column is absent from the table every station's provider is missing. -/
theorem claim_C3_provider_edges (t : StationTable) (pts : List (ℚ × ℚ))
    (thr : ℚ) (hg : t.geometry = some pts) :
    (∀ i j, dupAdj pts t.providerAt thr i j = true →
      ∀ p, t.providerAt i = some p → t.providerAt j ≠ some p) ∧
    (∀ i, t.providerAt i = none →
      ∀ j, provEq (t.providerAt i) (t.providerAt j) = false ∧
        provEq (t.providerAt j) (t.providerAt i) = false) ∧
    (t.provider = none → ∀ i, t.providerAt i = none) := by
  refine ⟨?_, ?_, ?_⟩
  · intro i j hadj p hpi hpj
    have hne : provEq (t.providerAt i) (t.providerAt j) = false := by
      simp only [dupAdj, Bool.and_eq_true, Bool.not_eq_true'] at hadj
      exact hadj.2
    rw [hpi, hpj] at hne
    simp [provEq] at hne
  · intro i hnone j
    rw [hnone]
    constructor
    · cases t.providerAt j <;> simp [provEq]
    · cases t.providerAt j <;> simp [provEq]
  · intro hcol i
    simp [StationTable.providerAt, hcol]

/-- Witness for C3 on the fixture table. -/
theorem claim_C3_provider_edges_witness :
    wTable.geometry = some wPts ∧
    ((∀ i j, dupAdj wPts wTable.providerAt 1 i j = true →
      ∀ p, wTable.providerAt i = some p → wTable.providerAt j ≠ some p) ∧
    (∀ i, wTable.providerAt i = none →
      ∀ j, provEq (wTable.providerAt i) (wTable.providerAt j) = false ∧
        provEq (wTable.providerAt j) (wTable.providerAt i) = false) ∧
    (wTable.provider = none → ∀ i, wTable.providerAt i = none)) :=
  ⟨rfl, claim_C3_provider_edges wTable wPts 1 rfl⟩

/-- C7: the groups returned by `find_duplicates` are pairwise disjoint, each
group is a duplicate-free set of at least two original-table indices, and the
sequence is emitted in order of first discovery: each group's discovery vertex
(its minimum) precedes every member of every later group. -/
theorem claim_C7_group_invariants (t : StationTable) (thr : ℚ)
    (gs : List (List Nat)) (h : find_duplicates t thr = .ok gs) :
    List.Pairwise (fun g g2 => ∀ x, x ∈ g → x ∉ g2) gs ∧
    (∀ g ∈ gs, g.Nodup ∧ 2 ≤ g.length) ∧
    List.Pairwise (fun g g2 => ∃ a ∈ g, ∀ b ∈ g2, a < b) gs := by
  rcases find_duplicates_ok_inv h with ⟨pts, hg, hthr, hgs⟩
  subst hgs
  have hsym := dupAdj_symm pts t.providerAt thr
  have hbound := dupAdj_bound pts t.providerAt thr
  have hirr := dupAdj_irrefl pts t.providerAt thr
  exact ⟨dupGroups_disjoint hsym hbound,
    dupGroups_sizes hsym hbound hirr,
    (dupGroups_inv hsym hbound).2.2⟩

/-- Witness for C7: on the fixture the call returns the single group [0, 1, 2]. -/
theorem claim_C7_group_invariants_witness :
    find_duplicates wTable 1 = .ok [[0, 1, 2]] ∧
    (List.Pairwise (fun g g2 => ∀ x, x ∈ g → x ∉ g2) [[0, 1, 2]] ∧
    (∀ g ∈ [[0, 1, 2]], g.Nodup ∧ 2 ≤ g.length) ∧
    List.Pairwise (fun g g2 => ∃ a ∈ g, ∀ b ∈ g2, a < b) ([[0, 1, 2]] : List (List Nat))) :=
  ⟨by with_unfolding_all rfl,
    claim_C7_group_invariants wTable 1 [[0, 1, 2]] (by with_unfolding_all rfl)⟩

/-- C8: a table without a geometry column fails with `MissingColumnError`; a
geometry-bearing table with a non-positive threshold fails with
`InvalidParameterError`; and a valid call on a table of zero or one stations
returns an empty group list, not an error. -/
theorem claim_C8_failure_modes (t : StationTable) (thr : ℚ) :
    (t.geometry = none → find_duplicates t thr = .error .missingColumn) ∧
    (∀ pts, t.geometry = some pts → thr ≤ 0 →
      find_duplicates t thr = .error .invalidParameter) ∧
    (∀ pts, t.geometry = some pts → 0 < thr → pts.length ≤ 1 →
      find_duplicates t thr = .ok []) := by
  refine ⟨?_, ?_, ?_⟩
  · intro hg
    exact find_duplicates_none hg thr
  · intro pts hg hle
    exact find_duplicates_nonpos hg (by exact not_lt.mpr hle)
  · intro pts hg hthr hlen
    rw [find_duplicates_some hg hthr,
      dupGroups_le_one (dupAdj_irrefl pts t.providerAt thr) hlen]

/-- Witness for C8 on concrete tables: one lacking geometry, one with a
non-positive threshold, and a singleton-station table. -/
theorem claim_C8_failure_modes_witness :
    find_duplicates { geometry := none, provider := none } 1 =
      .error .missingColumn ∧
    find_duplicates { geometry := some [(0, 0)], provider := none } 0 =
      .error .invalidParameter ∧
    find_duplicates { geometry := some [(0, 0)], provider := none } 1 =
      .ok [] :=
  ⟨(claim_C8_failure_modes { geometry := none, provider := none } 1).1 rfl,
    (claim_C8_failure_modes { geometry := some [(0, 0)], provider := none } 0).2.1
      [(0, 0)] rfl (by decide),
    (claim_C8_failure_modes { geometry := some [(0, 0)], provider := none } 1).2.2
      [(0, 0)] rfl (by decide) (by decide)⟩

theorem mem_insertTime {a x : Nat} {l : List Nat} :
    x ∈ insertTime a l ↔ x = a ∨ x ∈ l := by
  induction l with
  | nil => simp [insertTime]
  | cons b l ih =>
      by_cases h1 : a < b
      · rw [insertTime, if_pos h1]
        simp
      · by_cases h2 : a = b
        · rw [insertTime, if_neg h1, if_pos h2, h2]
          simp [List.mem_cons]
        · rw [insertTime, if_neg h1, if_neg h2]
          simp [List.mem_cons, ih]
          tauto

theorem insertTime_sorted {a : Nat} {l : List Nat}
    (h : List.Sorted (· < ·) l) : List.Sorted (· < ·) (insertTime a l) := by
  induction l with
  | nil => simp [insertTime]
  | cons b l ih =>
      rw [List.sorted_cons] at h
      by_cases h1 : a < b
      · rw [insertTime, if_pos h1, List.sorted_cons]
        refine ⟨?_, List.sorted_cons.mpr h⟩
        intro x hx
        rcases List.mem_cons.mp hx with hx | hx
        · rw [hx]; exact h1
        · exact lt_trans h1 (h.1 x hx)
      · by_cases h2 : a = b
        · rw [insertTime, if_neg h1, if_pos h2]
          exact List.sorted_cons.mpr h
        · rw [insertTime, if_neg h1, if_neg h2, List.sorted_cons]
          refine ⟨?_, ih h.2⟩
          intro x hx
          rcases mem_insertTime.mp hx with hx | hx
          · rw [hx]; omega
          · exact h.1 x hx

theorem foldr_insert_sorted (s : Series) (u : List Nat)
    (h : List.Sorted (· < ·) u) :
    List.Sorted (· < ·) (s.foldr (fun p u2 => insertTime p.1 u2) u) := by
  induction s with
  | nil => exact h
  | cons p s ih => exact insertTime_sorted ih

theorem mem_foldr_insert {s : Series} {u : List Nat} {x : Nat} :
    x ∈ s.foldr (fun p u2 => insertTime p.1 u2) u ↔
      (∃ p ∈ s, p.1 = x) ∨ x ∈ u := by
  induction s with
  | nil => simp
  | cons p s ih =>
      show x ∈ insertTime p.1 (s.foldr _ u) ↔ _
      rw [mem_insertTime, ih]
      simp
      tauto

theorem unionIndex_sorted (ts : List Series) :
    List.Sorted (· < ·) (unionIndex ts) := by
  induction ts with
  | nil => simp [unionIndex]
  | cons s ts ih => exact foldr_insert_sorted s _ ih

theorem mem_unionIndex {ts : List Series} {x : Nat} :
    x ∈ unionIndex ts ↔ ∃ s ∈ ts, ∃ p ∈ s, p.1 = x := by
  induction ts with
  | nil => simp [unionIndex]
  | cons s ts ih =>
      show x ∈ s.foldr _ (unionIndex ts) ↔ _
      rw [mem_foldr_insert, ih]
      simp

theorem tsLookup_cons_self {t : Nat} {v : Int} {s : Series} :
    tsLookup ((t, v) :: s) t = some v := by
  simp [tsLookup]

theorem tsLookup_cons_ne {t t0 : Nat} {v : Int} {s : Series} (h : t ≠ t0) :
    tsLookup ((t0, v) :: s) t = tsLookup s t := by
  have hb : ((t0, v).1 == t) = false := by
    simp
    omega
  simp [tsLookup, List.find?_cons, hb]

theorem tsLookup_eq_none {s : Series} {t : Nat} (h : ∀ p ∈ s, p.1 ≠ t) :
    tsLookup s t = none := by
  have : s.find? (fun p => p.1 == t) = none := by
    rw [List.find?_eq_none]
    intro p hp
    simp
    exact h p hp
  simp [tsLookup, this]

theorem filterMap_lookup_recover (u : List Nat) :
    ∀ (s : Series), List.Sorted (· < ·) (s.map Prod.fst) →
      List.Sorted (· < ·) u → (∀ p ∈ s, p.1 ∈ u) →
      u.filterMap (fun t =>
        match tsLookup s t with
        | some v => some (t, v)
        | none => none) = s := by
  induction u with
  | nil =>
      intro s _ _ hsub
      cases s with
      | nil => rfl
      | cons p s => exact absurd (hsub p (by simp)) (by simp)
  | cons a u ih =>
      intro s hs hu hsub
      rw [List.sorted_cons] at hu
      cases s with
      | nil =>
          have hnone : tsLookup ([] : Series) a = none := rfl
          rw [List.filterMap_cons]
          rw [hnone]
          exact ih [] (by simp) hu.2 (by simp)
      | cons p s =>
          rw [List.map_cons, List.sorted_cons] at hs
          by_cases hpa : p.1 = a
          · have hlook : tsLookup (p :: s) a = some p.2 := by
              have : p = (a, p.2) := by
                rw [← hpa]
              rw [this]
              exact tsLookup_cons_self
            rw [List.filterMap_cons, hlook]
            have hfg : ∀ t ∈ u,
                (fun t =>
                  match tsLookup (p :: s) t with
                  | some v => some (t, v)
                  | none => none) t =
                (fun t =>
                  match tsLookup s t with
                  | some v => some (t, v)
                  | none => none) t := by
              intro t ht
              have hta : t ≠ p.1 := by
                have := hu.1 t ht
                omega
              show (match tsLookup (p :: s) t with
                | some v => some (t, v)
                | none => none) = _
              rw [show p = (p.1, p.2) from rfl, tsLookup_cons_ne hta]
            have htail : u.filterMap (fun t =>
                match tsLookup (p :: s) t with
                | some v => some (t, v)
                | none => none) = s := by
              rw [List.filterMap_congr hfg]
              refine ih s hs.2 hu.2 ?_
              intro q hq
              have hq1 : q.1 ∈ a :: u := hsub q (List.mem_cons_of_mem p hq)
              have hne : q.1 ≠ a := by
                have := hs.1 q.1 (List.mem_map_of_mem Prod.fst hq)
                omega
              rcases List.mem_cons.mp hq1 with h | h
              · exact absurd h hne
              · exact h
            rw [htail]
            show (a, p.2) :: s = p :: s
            rw [show (a, p.2) = p from by rw [← hpa]]
          · have hap : a < p.1 := by
              have hq1 : p.1 ∈ a :: u := hsub p (List.mem_cons_self p s)
              rcases List.mem_cons.mp hq1 with h | h
              · exact absurd h hpa
              · exact hu.1 p.1 h
            have hnone : tsLookup (p :: s) a = none := by
              refine tsLookup_eq_none ?_
              intro q hq
              rcases List.mem_cons.mp hq with h | h
              · rw [h]; omega
              · have := hs.1 q.1 (List.mem_map_of_mem Prod.fst h)
                omega
            rw [List.filterMap_cons, hnone]
            refine ih (p :: s) (by rw [List.map_cons, List.sorted_cons]; exact hs)
              hu.2 ?_
            intro q hq
            have hq1 : q.1 ∈ a :: u := hsub q hq
            have hne : q.1 ≠ a := by
              rcases List.mem_cons.mp hq with h | h
              · rw [h]; omega
              · have := hs.1 q.1 (List.mem_map_of_mem Prod.fst h)
                omega
            rcases List.mem_cons.mp hq1 with h | h
            · exact absurd h hne
            · exact h

/-- C9: concatenating per-station single-variable time series into one wide
table and splitting the wide table back per station by column reproduces every
original per-station table exactly, timestamps and values unchanged, for any
collection of tables whose timestamps are strictly increasing (the spec's
invariant: monotone, duplicate-free per-station indexes). -/
theorem claim_C9_roundtrip (ts : List Series)
    (hsorted : ∀ s ∈ ts, List.Sorted (· < ·) (s.map Prod.fst))
    (j : Nat) (hj : j < ts.length) :
    splitCol (concatSeries ts) j = ts.get ⟨j, hj⟩ := by
  unfold splitCol concatSeries
  rw [List.filterMap_map]
  have hcongr : ∀ t ∈ unionIndex ts,
      ((fun r : Nat × List (Option Int) =>
          match r.2.getD j none with
          | some v => some (r.1, v)
          | none => none) ∘ (fun t => (t, ts.map (fun s => tsLookup s t)))) t =
      (fun t =>
        match tsLookup (ts.get ⟨j, hj⟩) t with
        | some v => some (t, v)
        | none => none) t := by
    intro t _
    simp only [Function.comp]
    have hget : (ts.map (fun s => tsLookup s t)).getD j none
        = tsLookup (ts.get ⟨j, hj⟩) t := by
      rw [List.getD_eq_getElem?_getD, List.getElem?_map,
        List.getElem?_eq_getElem hj]
      simp
    rw [hget]
  rw [List.filterMap_congr hcongr]
  refine filterMap_lookup_recover (unionIndex ts) (ts.get ⟨j, hj⟩)
    (hsorted _ (ts.get_mem j hj)) (unionIndex_sorted ts) ?_
  intro p hp
  exact mem_unionIndex.mpr ⟨ts.get ⟨j, hj⟩, ts.get_mem j hj, p, hp, rfl⟩

/-- Witness for C9 on two concrete interleaved series. -/
theorem claim_C9_roundtrip_witness :
    (∀ s ∈ wTs, List.Sorted (· < ·) (s.map Prod.fst)) ∧ 0 < wTs.length ∧
    splitCol (concatSeries wTs) 0 = wTs.get ⟨0, by decide⟩ :=
  ⟨by decide, by decide, claim_C9_roundtrip wTs (by decide) 0 (by decide)⟩

theorem reindexWide_index (w : WideTable) (ds : List Nat) (ncols : Nat) :
    (reindexWide w ds ncols).map Prod.fst = ds := by
  simp only [reindexWide, List.map_map]
  have : (Prod.fst ∘ fun d : Nat =>
      (d, (wideLookup w d).getD (List.replicate ncols none))) = id := rfl
  rw [this, List.map_id]

theorem dateRange_sorted (start stop : Nat) :
    List.Sorted (· < ·) (dateRange start stop) := by
  unfold dateRange
  rw [List.Sorted, List.pairwise_map]
  exact (List.pairwise_lt_range _).imp (by omega)

theorem mem_dateRange {start stop x : Nat} :
    x ∈ dateRange start stop ↔ start ≤ x ∧ x ≤ stop := by
  simp only [dateRange, List.mem_map, List.mem_range]
  constructor
  · rintro ⟨k, hk, rfl⟩
    omega
  · intro h
    exact ⟨x - start, by omega, by omega⟩

theorem sorted_eq_of_subset_of_length {l1 l2 : List Nat}
    (h1 : List.Sorted (· < ·) l1) (h2 : List.Sorted (· < ·) l2)
    (hsub : l1 ⊆ l2) (hlen : l2.length ≤ l1.length) : l1 = l2 := by
  haveI : IsAntisymm Nat (· < ·) := ⟨fun a b x y => absurd y (Nat.lt_asymm x)⟩
  exact List.eq_of_perm_of_sorted
    ((List.subperm_of_subset h1.nodup hsub).perm_of_length_le hlen) h1 h2

/-- C10: in the notebook's export step, whenever the wide table's row count
differs from the number of days from `start` to `stop` the table is reindexed
to the complete daily range; consequently, for any wide table whose index is
strictly increasing and clipped to the closed period (as `get_timeseries`
guarantees), the exported table has exactly one row per day of the period, even
when no station has data at the period boundaries. -/
theorem claim_C10_full_period (start stop ncols : Nat) (w : WideTable)
    (hsorted : List.Sorted (· < ·) (w.map Prod.fst))
    (hwithin : ∀ r ∈ w, start ≤ r.1 ∧ r.1 ≤ stop) :
    (w.length ≠ (dateRange start stop).length →
      exportWide start stop ncols w = reindexWide w (dateRange start stop) ncols) ∧
    (exportWide start stop ncols w).map Prod.fst = dateRange start stop := by
  constructor
  · intro hne
    rw [exportWide, if_neg hne]
  · unfold exportWide
    by_cases hlen : w.length = (dateRange start stop).length
    · rw [if_pos hlen]
      refine sorted_eq_of_subset_of_length hsorted (dateRange_sorted start stop)
        ?_ ?_
      · intro x hx
        rcases List.mem_map.mp hx with ⟨r, hr, hrx⟩
        rcases hwithin r hr with ⟨hh1, hh2⟩
        rw [← hrx]
        exact mem_dateRange.mpr ⟨hh1, hh2⟩
      · rw [List.length_map, hlen]
    · rw [if_neg hlen]
      exact reindexWide_index w (dateRange start stop) ncols

/-- Witness for C10: a wide table missing day 1 of the period 0..2 is reindexed
to all three days. -/
theorem claim_C10_full_period_witness :
    List.Sorted (· < ·) (wWide.map Prod.fst) ∧
    (∀ r ∈ wWide, 0 ≤ r.1 ∧ r.1 ≤ 2) ∧
    ((wWide.length ≠ (dateRange 0 2).length →
      exportWide 0 2 1 wWide = reindexWide wWide (dateRange 0 2) 1) ∧
    (exportWide 0 2 1 wWide).map Prod.fst = dateRange 0 2) :=
  ⟨by decide, by decide, claim_C10_full_period 0 2 1 wWide (by decide) (by decide)⟩
